import Mathlib

/-!
Shallow embedding of the locked-pancake runtime core: the bytecode virtual
machine (src/src/main.rs) and the tracing garbage collector (src/gc/src/lib.rs).

Conventions of the embedding:
* Rust Vec-based operand stacks are modelled as Lists whose HEAD is the TOP of
  the stack (the last-pushed element).  Rust push is cons, Rust pop takes the
  head, Rust stack[len - 1 - k] is index k from the head, Rust truncate(len - n)
  drops n elements from the head, Rust split_off(len - n) takes the first n
  elements and reverses them back into push order.
* Machine integers: instruction bytes and operand bytes (u8) and indices
  (usize) are Nat; the i32 stored in a frame marker is Int, and the Rust
  cast (usize as i32) is the function usizeToI32 below (truncation to the low
  32 bits, reinterpreted in two complement form).
* Fallible Vec indexing in Rust (v[i], which aborts when i is out of bounds)
  is modelled by List.get?; the abort itself surfaces as the StepResult.crash
  outcome, distinct from the typed ExecError values that Rust returns in Err.
* A Rust loop mutating state in place becomes explicit state passing; the
  thread state carried inside an error outcome is the state at the moment the
  Rust function returns Err (pops and instruction pointer advances that
  happened before the Err are included, since the caller keeps the thread).
-/

/-- ExecError from main.rs. -/
inductive ExecError where
  | InvalidInstruction
  | StackEmpty
  | StackFull
deriving DecidableEq

/-- Instruction from main.rs; the FromPrimitive derive numbers the variants
0..9 in declaration order. -/
inductive Instr where
  | ret
  | call
  | loadConstant
  | loadCode
  | makeFunction
  | loadGlobal
  | setGlobal
  | getAttr
  | setAttr
  | pop
deriving DecidableEq

mutual
/-- Value from main.rs: tagged union of runtime values. -/
inductive Value : Type where
  | str : String → Value
  | integer : Int → Value
  | nil : Value
  | code : Code → Value
  | func : Fn → Value
  | userdata : Nat → Value

/-- Code from main.rs: upvalue count, parameter count, constant table,
instruction byte sequence, nested code table (field order as in the source). -/
inductive Code : Type where
  | mk : Nat → Nat → List Value → List Nat → List Code → Code

/-- Function from main.rs: a code object plus captured upvalues. -/
inductive Fn : Type where
  | mk : Code → List Value → Fn
end

def Code.upvalues : Code → Nat
  | .mk u _ _ _ _ => u

def Code.params : Code → Nat
  | .mk _ p _ _ _ => p

def Code.constants : Code → List Value
  | .mk _ _ c _ _ => c

def Code.instrs : Code → List Nat
  | .mk _ _ _ i _ => i

def Code.codes : Code → List Code
  | .mk _ _ _ _ cs => cs

def Fn.code : Fn → Code
  | .mk c _ => c

def Fn.upvalues : Fn → List Value
  | .mk _ u => u

/-- The Rust integer cast (usize as i32): keep the low 32 bits and
reinterpret them as a signed 32-bit value. -/
def usizeToI32 (n : Nat) : Int :=
  let m : Nat := n % 2 ^ 32
  if m < 2 ^ 31 then (m : Int) else (m : Int) - 2 ^ 32

/-- VirtualMachine state from main.rs: the global name-to-value map,
modelled as an association list. -/
structure VMState where
  globals : List (String × Value)

/-- Thread from main.rs: current code, instruction pointer, operand stack
(head of the list is the top of the stack). -/
structure Thread where
  code : Code
  instr : Nat
  stack : List Value

/-- Outcome of one iteration of the fetch-decode-execute loop.  The crash
outcome models a Rust index-out-of-bounds abort (an unchecked instrs[i]
operand read), which is not a typed ExecError. -/
inductive StepResult where
  | ok (vm : VMState) (t : Thread)
  | error (e : ExecError) (vm : VMState) (t : Thread)
  | crash

/-- FromPrimitive::from_u8 for Instruction: bytes 0..9 decode in declaration
order, every other byte is rejected. -/
def decode (b : Nat) : Option Instr :=
  match b with
  | 0 => some .ret
  | 1 => some .call
  | 2 => some .loadConstant
  | 3 => some .loadCode
  | 4 => some .makeFunction
  | 5 => some .loadGlobal
  | 6 => some .setGlobal
  | 7 => some .getAttr
  | 8 => some .setAttr
  | 9 => some .pop
  | _ => none

/-- The per-opcode execution step of VirtualMachine::execute, entered after
the opcode has been fetched and decoded.  ip is the instruction pointer value
after the opcode byte (the position of the operand byte, when there is one).
Each branch mirrors the corresponding match arm of the source line by line. -/
def runInstr (vm : VMState) (code : Code) (ip : Nat) (stack : List Value)
    (i : Instr) : StepResult :=
  match i with
  | .ret =>
    -- let (pop1, pop2) := (stack.pop(), stack.pop()); pop1 is the old top.
    match stack with
    | Value.integer n :: Value.code c :: rest =>
      if 0 ≤ n then .ok vm ⟨c, n.toNat, rest⟩
      else .error .InvalidInstruction vm ⟨code, ip, rest⟩
    | _ :: _ :: rest => .error .InvalidInstruction vm ⟨code, ip, rest⟩
    | _ => .error .StackEmpty vm ⟨code, ip, []⟩
  | .call =>
    match code.instrs.get? ip with
    | none => .crash
    | some nbArgs =>
      let ip' := ip + 1
      if stack.length < nbArgs + 1 then .error .StackEmpty vm ⟨code, ip', stack⟩
      else
        match stack.get? nbArgs with
        | some (Value.func f) =>
          let adjusted :=
            if f.code.params > nbArgs then
              List.replicate (f.code.params - nbArgs) Value.nil ++ stack
            else if f.code.params < nbArgs then
              stack.drop (nbArgs - f.code.params)
            else stack
          if f.code.upvalues > 0 then
            .error .InvalidInstruction vm ⟨code, ip', adjusted⟩
          else
            .ok vm ⟨f.code, 0,
              Value.code code :: Value.integer (usizeToI32 ip') :: adjusted⟩
        | _ => .error .InvalidInstruction vm ⟨code, ip', stack⟩
  | .loadConstant =>
    match code.instrs.get? ip with
    | none => .crash
    | some idx =>
      match code.constants.get? idx with
      | some v => .ok vm ⟨code, ip + 1, v :: stack⟩
      | none => .error .InvalidInstruction vm ⟨code, ip + 1, stack⟩
  | .loadCode =>
    match code.instrs.get? ip with
    | none => .crash
    | some idx =>
      match code.codes.get? idx with
      | some c => .ok vm ⟨code, ip + 1, Value.code c :: stack⟩
      | none => .error .InvalidInstruction vm ⟨code, ip + 1, stack⟩
  | .makeFunction =>
    match code.instrs.get? ip with
    | none => .crash
    | some n =>
      let ip' := ip + 1
      if n > 0 then .error .InvalidInstruction vm ⟨code, ip', stack⟩
      else if stack.length < n + 1 then .error .StackEmpty vm ⟨code, ip', stack⟩
      else
        let ups := (stack.take n).reverse
        match stack.drop n with
        | Value.code c :: rest =>
          .ok vm ⟨code, ip', Value.func (Fn.mk c ups) :: rest⟩
        | _ :: rest => .error .InvalidInstruction vm ⟨code, ip', rest⟩
        | [] => .error .InvalidInstruction vm ⟨code, ip', []⟩
  | .loadGlobal => .ok vm ⟨code, ip, stack⟩
  | .setGlobal => .ok vm ⟨code, ip, stack⟩
  | .getAttr => .ok vm ⟨code, ip, stack⟩
  | .setAttr => .ok vm ⟨code, ip, stack⟩
  | .pop =>
    match code.instrs.get? ip with
    | none => .crash
    | some n =>
      let ip' := ip + 1
      if stack.length < n then .error .StackEmpty vm ⟨code, ip', stack⟩
      else .ok vm ⟨code, ip', stack.drop n⟩

/-- One iteration of the fetch-decode-execute loop of
VirtualMachine::execute: an instruction pointer at or past the end of the
byte sequence fetches an implicit Return without advancing; otherwise one
byte is read, the pointer advances, and an undecodable byte is the
InvalidInstruction error. -/
def step (vm : VMState) (t : Thread) : StepResult :=
  if h : t.code.instrs.length ≤ t.instr then
    runInstr vm t.code t.instr t.stack Instr.ret
  else
    let b := t.code.instrs.get ⟨t.instr, by omega⟩
    match decode b with
    | none => .error .InvalidInstruction vm ⟨t.code, t.instr + 1, t.stack⟩
    | some i => runInstr vm t.code (t.instr + 1) t.stack i

/-- Overall outcome of VirtualMachine::execute.  ok b is Ok(b), error e is
Err(e), crash is a Rust abort inside the loop. -/
inductive ExecResult where
  | ok (finished : Bool)
  | error (e : ExecError)
  | crash
deriving DecidableEq

/-- VirtualMachine::execute with budget Some n: the while loop runs while the
remaining count is positive, decrementing it after each executed instruction,
and returns Ok(false) when the count reaches zero.  (With budget None the
source loop has no non-error exit at all; every claim below concerns bounded
budgets or single steps.)  Returns the result together with the final
virtual-machine and thread state. -/
def executeN : Nat → VMState → Thread → ExecResult × VMState × Thread
  | 0, vm, t => (.ok false, vm, t)
  | n + 1, vm, t =>
    match step vm t with
    | .ok vm' t' => executeN n vm' t'
    | .error e vm' t' => (.error e, vm', t')
    | .crash => (.crash, vm, t)

/-- Tests whether an execution outcome is Ok(true), the value that the
process entry point in main.rs treats as successful completion. -/
def ExecResult.isOkTrue : ExecResult → Bool
  | .ok true => true
  | _ => false

example : decode 9 = some Instr.pop := rfl
example : usizeToI32 2 = 2 := by decide

/-!
Embedding of the tracing allocator (src/gc/src/lib.rs).

The Rust allocator leaks every slot (Box::leak), so a slot address stays
valid forever; handles are raw pointers to slots.  The embedding follows the
arena reading of this design (also spelled out in the specification): slots
live in an ever-growing arena list indexed by allocation order, a handle is
the Nat index of its slot, and the live list (the values vector of the
source) holds the indices of the slots still tracked by the allocator.
GcFlag is a Nat (the source uses the values 0, 1, 2).

The Traceable trait is a parameter: succ v lists the handles held by the
payload v, exactly what T::trace(flag) would call trace_ref on, in order.
GcRef::trace_ref recurses through the payload.  Two embeddings of that
traversal appear below:

* traceRefGo is the faithful one.  The slot flag lives in a RefCell and
  trace_ref keeps the RefMut guard obtained from borrow_mut alive across the
  recursive value.trace call, so re-entering a slot whose guard is still
  held (a back edge to a slot on the active traversal path) panics with a
  double mutable borrow before the flag test can run.  traceRefGo makes the
  recursion stack explicit as a worklist whose entries carry the list of
  slots with a live guard at the moment the entry is traced (the active path
  at push time), and returns none for that borrow panic.

* markGo is the flag-driven traversal on its own: how trace_ref behaves on
  every execution that completes without the borrow panic (no back edge
  reaches the active path).  The mark-then-sweep development below uses it,
  and traceRefGo_eq_markGo proves that whenever traceRefGo completes, the
  two agree.  Its second component records the payload visits actually
  performed (the calls to value.trace), in order.
-/

/-- One tracked slot: GcValue from lib.rs (optional payload plus flag). -/
structure GcSlot (α : Type) where
  value : Option α
  flag : Nat
deriving DecidableEq

/-- SimpleGcAllocator from lib.rs: current cycle flag, the arena of every
slot ever allocated (never shrinks; a collected slot stays as a tombstone),
and the live list of tracked slot indices. -/
structure SimpleGcAllocator (α : Type) where
  flag : Nat
  slots : List (GcSlot α)
  values : List Nat
deriving DecidableEq

/-- Default::default for SimpleGcAllocator: flag 1, nothing tracked. -/
def defaultAllocator (α : Type) : SimpleGcAllocator α := ⟨1, [], []⟩

/-- GcAllocator::alloc: a fresh slot starts with flag 0 (distinct from both
cycle values 1 and 2), is appended to the arena and registered in the live
list; the returned handle is its arena index. -/
def SimpleGcAllocator.alloc (a : SimpleGcAllocator α) (v : α) :
    SimpleGcAllocator α × Nat :=
  ({ flag := a.flag, slots := a.slots ++ [⟨some v, 0⟩],
     values := a.values ++ [a.slots.length] }, a.slots.length)

/-- Number of slots whose flag differs from the current flag; the measure
that makes the marking recursion terminate (each real visit marks one
previously unmarked slot). -/
def unmarkedCount (flag : Nat) (slots : List (GcSlot α)) : Nat :=
  slots.countP (fun s => s.flag != flag)

theorem unmarkedCount_set_lt {α : Type} (flag : Nat) :
    ∀ (slots : List (GcSlot α)) (i : Nat) (hlt : i < slots.length),
      (slots.get ⟨i, hlt⟩).flag ≠ flag → ∀ v : Option α,
      unmarkedCount flag (slots.set i ⟨v, flag⟩) < unmarkedCount flag slots := by
  intro slots
  induction slots with
  | nil => intro i hlt; simp at hlt
  | cons s tl ih =>
    intro i hlt hf v
    cases i with
    | zero =>
      simp only [List.get] at hf
      simp only [List.set, unmarkedCount, List.countP_cons]
      have h1 : ((⟨v, flag⟩ : GcSlot α).flag != flag) = false := by simp
      have h2 : (s.flag != flag) = true := by simpa using hf
      rw [h1, h2]
      simp
    | succ n =>
      simp only [List.length_cons] at hlt
      have hlt' : n < tl.length := Nat.lt_of_succ_lt_succ hlt
      have key := ih n hlt' (by simpa [List.get] using hf) v
      simp only [unmarkedCount] at key
      simp only [List.set, unmarkedCount, List.countP_cons]
      omega

/-- The flag-driven part of GcRef::trace_ref as a worklist traversal,
ignoring the RefCell borrow guard: the semantics of trace_ref on every
execution that completes (traceRefGo below models the guard itself, and
traceRefGo_eq_markGo shows the two agree whenever trace_ref completes).
For the slot at the head of the worklist: an index outside the arena is
skipped (a Rust handle always points at a real slot, so this branch is
unreachable from real states); a slot whose flag already equals the current
flag is skipped; otherwise the flag is set first and, when the payload is
present, its trace visits every handle it holds (those handles are pushed,
depth first); a hollowed slot has nothing to trace.  The second component
lists the slots whose payload trace was invoked, in visit order. -/
def markGo (succ : α → List Nat) (flag : Nat) :
    List (GcSlot α) → List Nat → List (GcSlot α) × List Nat
  | slots, [] => (slots, [])
  | slots, h :: rest =>
    if hlt : h < slots.length then
      if (slots.get ⟨h, hlt⟩).flag = flag then
        markGo succ flag slots rest
      else
        match (slots.get ⟨h, hlt⟩).value with
        | some v =>
          let r := markGo succ flag (slots.set h ⟨some v, flag⟩) (succ v ++ rest)
          (r.1, h :: r.2)
        | none => markGo succ flag (slots.set h ⟨none, flag⟩) rest
    else
      markGo succ flag slots rest
termination_by slots ws => (unmarkedCount flag slots, ws.length)
decreasing_by
  · apply Prod.Lex.right
    simp
  · apply Prod.Lex.left
    exact unmarkedCount_set_lt flag slots h hlt (by simp_all) (some v)
  · apply Prod.Lex.left
    exact unmarkedCount_set_lt flag slots h hlt (by simp_all) none
  · apply Prod.Lex.right
    simp

/-- GcRef::trace_ref with the RefCell borrow guard modelled.  Each worklist
entry pairs the handle being traced with the path of slots whose RefMut
guard is alive at that moment (the chain of trace_ref activations the entry
was pushed under, innermost first).  The source takes borrow_mut on the
slot flag before anything else and keeps the guard across the recursive
value.trace call, so tracing a handle whose slot is on that path is a
double mutable borrow: a panic, modelled as none, that aborts the whole
mark.  Otherwise the branches are those of trace_ref (and of markGo): skip
when the flag already equals the current one, else set the flag and trace
the payload, pushing its handles with this slot prepended to their path.
On some, the result pairs the final arena with the payload visits made, in
order. -/
def traceRefGo (succ : α → List Nat) (flag : Nat) :
    List (GcSlot α) → List (Nat × List Nat) →
      Option (List (GcSlot α) × List Nat)
  | slots, [] => some (slots, [])
  | slots, (h, path) :: rest =>
    if h ∈ path then none
    else if hlt : h < slots.length then
      if (slots.get ⟨h, hlt⟩).flag = flag then
        traceRefGo succ flag slots rest
      else
        match (slots.get ⟨h, hlt⟩).value with
        | some v =>
          match traceRefGo succ flag (slots.set h ⟨some v, flag⟩)
              ((succ v).map (fun j => (j, h :: path)) ++ rest) with
          | some r => some (r.1, h :: r.2)
          | none => none
        | none => traceRefGo succ flag (slots.set h ⟨none, flag⟩) rest
    else
      traceRefGo succ flag slots rest
termination_by slots ws => (unmarkedCount flag slots, ws.length)
decreasing_by
  · apply Prod.Lex.right
    simp
  · apply Prod.Lex.left
    exact unmarkedCount_set_lt flag slots h hlt (by simp_all) (some v)
  · apply Prod.Lex.left
    exact unmarkedCount_set_lt flag slots h hlt (by simp_all) none
  · apply Prod.Lex.right
    simp

/-- GcAllocator::mark for SimpleGcAllocator: trace_ref from the given handle
with the current flag.  Only slot flags change; the allocator flag and the
live list are untouched. -/
def SimpleGcAllocator.mark (succ : α → List Nat) (a : SimpleGcAllocator α)
    (h : Nat) : SimpleGcAllocator α :=
  { a with slots := (markGo succ a.flag a.slots [h]).1 }

/-- GcAllocator::mark with the borrow guard modelled: some on the marks that
complete, none when the traversal aborts in the double-borrow panic. -/
def markChecked (succ : α → List Nat) (a : SimpleGcAllocator α) (h : Nat) :
    Option (SimpleGcAllocator α) :=
  match traceRefGo succ a.flag a.slots [(h, [])] with
  | some r => some { a with slots := r.1 }
  | none => none

/-- The payload visits performed by one mark call, in order. -/
def markVisits (succ : α → List Nat) (a : SimpleGcAllocator α) (h : Nat) :
    List Nat :=
  (markGo succ a.flag a.slots [h]).2

/-- A sequence of mark calls, one per root, left to right. -/
def markAll (succ : α → List Nat) (a : SimpleGcAllocator α)
    (roots : List Nat) : SimpleGcAllocator α :=
  roots.foldl (fun acc r => SimpleGcAllocator.mark succ acc r) a

/-- The flag switch at the end of sweep: 1 becomes 2, anything else 1. -/
def flipFlag (f : Nat) : Nat :=
  match f with
  | 1 => 2
  | _ => 1

/-- The retain loop of sweep: GcValue::dealloc hollows (payload := none) and
removes from the live list every tracked slot whose flag differs from the
current flag; slots whose flag matches are kept in order.  As in markGo, an
index outside the arena cannot arise from real states. -/
def sweepGo (flag : Nat) : List (GcSlot α) → List Nat → List (GcSlot α) × List Nat
  | slots, [] => (slots, [])
  | slots, i :: rest =>
    match slots.get? i with
    | none => sweepGo flag slots rest
    | some s =>
      if s.flag ≠ flag then
        sweepGo flag (slots.set i ⟨none, s.flag⟩) rest
      else
        let r := sweepGo flag slots rest
        (r.1, i :: r.2)

/-- GcAllocator::sweep: run the retain loop, then switch the flag. -/
def SimpleGcAllocator.sweep (a : SimpleGcAllocator α) : SimpleGcAllocator α :=
  { flag := flipFlag a.flag,
    slots := (sweepGo a.flag a.slots a.values).1,
    values := (sweepGo a.flag a.slots a.values).2 }

/-- Deref for GcRef: some v is a successful dereference of the payload, none
is the explicit panic on a collected slot (the source aborts with the
message Attempt to dereference freed GcRef).  The slot itself is always
addressable, so no other outcome exists. -/
def derefRef (a : SimpleGcAllocator α) (h : Nat) : Option α :=
  match a.slots.get? h with
  | some s => s.value
  | none => none

/-- Deref with the allocator state threaded through, making explicit that a
dereference (successful or failed) borrows the allocator immutably and
leaves it unchanged for further alloc, mark and sweep calls. -/
def derefState (a : SimpleGcAllocator α) (h : Nat) :
    Option α × SimpleGcAllocator α :=
  (derefRef a h, a)

/-- Does the slot at index i currently carry the given flag? -/
def marB (flag : Nat) (slots : List (GcSlot α)) (i : Nat) : Bool :=
  match slots.get? i with
  | some s => s.flag == flag
  | none => false

/-- Is the slot at index i hollow (payload collected)? -/
def payloadNone (slots : List (GcSlot α)) (i : Nat) : Bool :=
  match slots.get? i with
  | some s => s.value.isNone
  | none => true

/-- The successor function of the heap graph: the handles held by the
payload of slot i, or none when the slot is hollow or the index invalid. -/
def slotSucc (succ : α → List Nat) (slots : List (GcSlot α)) (i : Nat) :
    List Nat :=
  match slots.get? i with
  | some s =>
    match s.value with
    | some v => succ v
    | none => []
  | none => []

/-- Transitive reachability from a root list through a successor function:
the specification notion of a slot being reachable from the handles passed
to mark. -/
inductive ReachG (g : Nat → List Nat) (roots : List Nat) : Nat → Prop
  | root {i : Nat} : i ∈ roots → ReachG g roots i
  | step {i j : Nat} : ReachG g roots i → j ∈ g i → ReachG g roots j

/-- The payload type of the allocator test in lib.rs: integers and arrays of
handles; its Traceable instance visits the array elements in order. -/
inductive TVal where
  | int (n : Int)
  | arr (elems : List Nat)
deriving DecidableEq

/-- The trace capability of TVal from the lib.rs test. -/
def tSucc : TVal → List Nat
  | .int _ => []
  | .arr es => es

/-!
Concrete programs used to evaluate the virtual machine on specific inputs.
-/

/-- A routine with no parameters, no upvalues and no instruction bytes:
entering it immediately falls off the end (implicit Return). -/
def emptyCode : Code := Code.mk 0 0 [] [] []

/-- A caller whose byte sequence is a single Call with argument count 0. -/
def callerCode : Code := Code.mk 0 0 [] [1, 0] []

/-- A thread about to Call the empty routine sitting on its stack. -/
def callerThread : Thread := ⟨callerCode, 0, [Value.func (Fn.mk emptyCode [])]⟩

/-- A routine holding one name constant whose bytes are SetGlobal with
constant operand 0. -/
def setGlobalCode : Code := Code.mk 0 0 [Value.str "main"] [6, 0] []

/-- Malformed bytecode: a LoadConstant opcode whose operand byte is missing. -/
def truncatedLoadConst : Code := Code.mk 0 0 [Value.integer 7] [2] []

/-- Malformed bytecode: a Call opcode whose operand byte is missing. -/
def truncatedCall : Code := Code.mk 0 0 [] [1] []

/-- A routine whose bytes are MakeFunction with upvalue count 1. -/
def mkFnCode : Code := Code.mk 0 0 [] [4, 1] []

/-- A routine whose bytes are MakeFunction with upvalue count 0. -/
def mkFnCode0 : Code := Code.mk 0 0 [] [4, 0] []

/-- A function of one declared parameter and no upvalues. -/
def wFn : Fn := Fn.mk (Code.mk 0 1 [] [] []) []

/-- C1: the claim says a Return executed after a Call pops the two frame
marker slots and resumes the caller after the operand byte of the Call.  The
code does the opposite of its own Call: Call pushes the instruction pointer
then the code object, so the code object is on top, but the Return match arm
requires the FIRST pop (the top of stack) to be the Integer and the second
to be the Code; on every frame its own Call built this shape test fails and
Return returns Err(InvalidInstruction) instead of resuming the caller.
First conjunct: Return on any stack whose top two slots are a code object
above an integer (exactly what Call pushes) is InvalidInstruction.  Second
conjunct: a concrete Call of the empty routine followed by the implicit
Return of the callee errors out instead of resuming the caller. -/
theorem call_return_roundtrip_invalid :
    (∀ (vm : VMState) (code : Code) (ip : Nat) (c : Code) (n : Int)
       (rest : List Value),
      runInstr vm code ip (Value.code c :: Value.integer n :: rest) Instr.ret =
        .error .InvalidInstruction vm ⟨code, ip, rest⟩)
    ∧ (∀ vm : VMState, executeN 2 vm callerThread =
        (.error .InvalidInstruction, vm,
          ⟨emptyCode, 0, [Value.func (Fn.mk emptyCode [])]⟩)) :=
  ⟨fun _ _ _ _ _ _ => rfl, fun _ => rfl⟩

/-- C2: the claim says a Return with no frame marker signals overall
completion, Ok(true).  The code has no Ok(true) exit at all: the only
non-error exit of the execute loop is budget exhaustion, Ok(false), and a
top-level Return on an empty stack is Err(StackEmpty).  First conjunct: no
budget, machine state or thread makes execute return Ok(true).  Second
conjunct: the top-level thread of an empty routine (fall-off-end Return with
no frame marker) errors with StackEmpty instead of completing. -/
theorem execute_never_signals_completion :
    (∀ (n : Nat) (vm : VMState) (t : Thread),
      ((executeN n vm t).1).isOkTrue = false)
    ∧ (∀ vm : VMState, executeN 1 vm ⟨emptyCode, 0, []⟩ =
        (.error .StackEmpty, vm, ⟨emptyCode, 0, []⟩)) := by
  constructor
  · intro n
    induction n with
    | zero => intro vm t; rfl
    | succ n ih =>
      intro vm t
      simp only [executeN]
      cases h : step vm t with
      | ok vm' t' => exact ih vm' t'
      | error e vm' t' => rfl
      | crash => rfl
  · intro vm; rfl

/-- C3: the claim says LoadGlobal resolves a name constant and pushes the
bound global (or Nil) and SetGlobal pops a value and binds it.  In the code
both opcode bodies are empty: no operand byte is consumed, the stack is
untouched and the global map of the virtual machine never changes.  First
conjunct: both opcodes leave machine and thread state exactly as they found
them.  Second conjunct: a concrete SetGlobal over the name constant main
with a value on the stack leaves the globals empty and the value unpopped,
and leaves the instruction pointer on the operand byte. -/
theorem globals_unimplemented :
    (∀ (vm : VMState) (code : Code) (ip : Nat) (stack : List Value),
        runInstr vm code ip stack Instr.loadGlobal = .ok vm ⟨code, ip, stack⟩
      ∧ runInstr vm code ip stack Instr.setGlobal = .ok vm ⟨code, ip, stack⟩)
    ∧ (∀ g : List (String × Value),
        step ⟨g⟩ ⟨setGlobalCode, 0, [Value.integer 4]⟩ =
          .ok ⟨g⟩ ⟨setGlobalCode, 1, [Value.integer 4]⟩) :=
  ⟨fun _ _ _ _ => ⟨rfl, rfl⟩, fun _ => rfl⟩

/-- C4: the claim says every execution step of malformed bytecode, missing
operand bytes included, returns a typed ExecError.  The operand byte reads
(instrs[instr]) are the one unchecked indexing in the interpreter: a byte
sequence that ends right after a LoadConstant or Call opcode makes the next
step abort with an out-of-bounds panic (the crash outcome) instead of
returning an ExecError.  (The constant-table and nested-code-table indices
themselves are checked, as other theorems here show.) -/
theorem missing_operand_crashes :
    ∀ (vm : VMState) (stack : List Value),
      step vm ⟨truncatedLoadConst, 0, stack⟩ = .crash
      ∧ step vm ⟨truncatedCall, 0, stack⟩ = .crash :=
  fun _ _ => ⟨rfl, rfl⟩

/-- C5: a Call with argument count a of a function with parameter count p
(and no upvalues) adjusts the arguments on the stack to exactly p values
before transferring control: missing arguments are padded with Nil, the
topmost extras are discarded; then the frame marker is pushed and the
thread enters the callee at instruction 0. -/
theorem call_adjusts_arguments (vm : VMState) (code : Code) (ip a : Nat)
    (args rest : List Value) (f : Fn)
    (hop : code.instrs.get? ip = some a)
    (hargs : args.length = a)
    (hup : f.code.upvalues = 0) :
    runInstr vm code ip (args ++ Value.func f :: rest) Instr.call =
      .ok vm ⟨f.code, 0,
        Value.code code :: Value.integer (usizeToI32 (ip + 1)) ::
          ((List.replicate (f.code.params - a) Value.nil ++
              args.drop (a - f.code.params)) ++ Value.func f :: rest)⟩
    ∧ (List.replicate (f.code.params - a) Value.nil ++
        args.drop (a - f.code.params)).length = f.code.params := by
  have hlen : (args ++ Value.func f :: rest).length = a + (rest.length + 1) := by
    simp [hargs]
  have hnot : ¬ (args ++ Value.func f :: rest).length < a + 1 := by
    rw [hlen]; omega
  have hget : (args ++ Value.func f :: rest).get? a = some (Value.func f) := by
    rw [List.get?_append_right (by omega)]
    simp [hargs]
  constructor
  · simp only [runInstr, hop]
    rw [if_neg hnot, hget]
    simp only [hup, gt_iff_lt, Nat.lt_irrefl, if_false]
    rcases Nat.lt_trichotomy f.code.params a with hpa | hpa | hpa
    · rw [if_neg (by omega), if_pos hpa]
      have : (args ++ Value.func f :: rest).drop (a - f.code.params) =
          args.drop (a - f.code.params) ++ Value.func f :: rest := by
        exact List.drop_append_of_le_length (by omega)
      rw [this]
      have : f.code.params - a = 0 := by omega
      simp [this]
    · rw [if_neg (by omega), if_neg (by omega)]
      have h1 : f.code.params - a = 0 := by omega
      have h2 : a - f.code.params = 0 := by omega
      simp [h1, h2]
    · rw [if_pos hpa]
      have h2 : a - f.code.params = 0 := by omega
      simp [h2]
  · have := List.length_drop (a - f.code.params) args
    simp only [List.length_append, List.length_replicate, List.length_drop, hargs]
    omega

/-- C5 witness: a Call with two supplied arguments of a one-parameter
function discards the topmost extra argument before entering the callee. -/
theorem call_adjusts_arguments_witness :
    runInstr ⟨[]⟩ (Code.mk 0 0 [] [1, 2] []) 1
        ([Value.integer 10, Value.integer 20] ++ Value.func wFn :: [])
        Instr.call =
      .ok ⟨[]⟩ ⟨wFn.code, 0,
        Value.code (Code.mk 0 0 [] [1, 2] []) :: Value.integer (usizeToI32 2) ::
          ((List.replicate (wFn.code.params - 2) Value.nil ++
              [Value.integer 10, Value.integer 20].drop (2 - wFn.code.params))
            ++ Value.func wFn :: [])⟩
    ∧ (List.replicate (wFn.code.params - 2) Value.nil ++
        [Value.integer 10, Value.integer 20].drop (2 - wFn.code.params)).length
        = wFn.code.params :=
  call_adjusts_arguments ⟨[]⟩ (Code.mk 0 0 [] [1, 2] []) 1 2
    [Value.integer 10, Value.integer 20] [] wFn rfl rfl rfl

/-- C6 counterexample: the claim says MakeFunction with upvalue count N pops
N upvalues and a code object and pushes the combined function (with
StackEmpty and InvalidInstruction reserved for underflow and a non-Code
slot).  At N = 1 with a Nil upvalue above a code object on the stack, the
code instead answers InvalidInstruction without touching the stack: upvalue
counts above zero are an unimplemented path that errors out before any pop
happens. -/
theorem makeFunction_upvalue_counterexample :
    runInstr ⟨[]⟩ mkFnCode 1 [Value.nil, Value.code emptyCode]
        Instr.makeFunction =
      .error .InvalidInstruction ⟨[]⟩
        ⟨mkFnCode, 2, [Value.nil, Value.code emptyCode]⟩ := rfl

/-- C6 amended: MakeFunction with upvalue count 0 pops one code object and
pushes a function with no upvalues; an empty stack is StackEmpty and a
non-Code top is InvalidInstruction (popping the offending value); any
upvalue count above 0 is InvalidInstruction unconditionally, the stack
untouched. -/
theorem makeFunction_amended (vm : VMState) (code : Code) (ip : Nat)
    (stack : List Value) (n : Nat) (hop : code.instrs.get? ip = some n) :
    (0 < n → runInstr vm code ip stack Instr.makeFunction =
       .error .InvalidInstruction vm ⟨code, ip + 1, stack⟩)
    ∧ (n = 0 → stack = [] → runInstr vm code ip stack Instr.makeFunction =
       .error .StackEmpty vm ⟨code, ip + 1, []⟩)
    ∧ (∀ c tail, n = 0 → stack = Value.code c :: tail →
        runInstr vm code ip stack Instr.makeFunction =
          .ok vm ⟨code, ip + 1, Value.func (Fn.mk c []) :: tail⟩)
    ∧ (∀ v tail, n = 0 → stack = v :: tail → (∀ c, v ≠ Value.code c) →
        runInstr vm code ip stack Instr.makeFunction =
          .error .InvalidInstruction vm ⟨code, ip + 1, tail⟩) := by
  refine ⟨fun hn => ?_, fun hn hs => ?_, fun c tail hn hs => ?_,
    fun v tail hn hs hv => ?_⟩
  · simp only [runInstr, hop]
    rw [if_pos hn]
  · subst hn hs
    simp only [runInstr]
    rw [hop]
    simp
  · subst hn hs
    simp only [runInstr]
    rw [hop]
    simp
  · subst hn hs
    simp only [runInstr]
    rw [hop]
    cases v with
    | code c => exact absurd rfl (hv c)
    | str s => simp
    | integer n => simp
    | nil => simp
    | func f => simp
    | userdata u => simp

/-- C6 amended witness: MakeFunction with upvalue count 0 over a stack
holding one code object succeeds and pushes the function. -/
theorem makeFunction_amended_witness :
    runInstr ⟨[]⟩ mkFnCode0 1 [Value.code emptyCode] Instr.makeFunction =
      .ok ⟨[]⟩ ⟨mkFnCode0, 2, [Value.func (Fn.mk emptyCode [])]⟩ :=
  (makeFunction_amended ⟨[]⟩ mkFnCode0 1 [Value.code emptyCode] 0 rfl).2.2.1
    emptyCode [] rfl rfl

/-- C10: execute with budget Some 0 never enters the loop body: it returns
Ok(false) with the thread (code, instruction pointer, stack) and the global
map of the virtual machine exactly as they were. -/
theorem execute_zero_budget (vm : VMState) (t : Thread) :
    executeN 0 vm t = (.ok false, vm, t) := rfl

/-!
Unfold equations for markGo, one per branch of the traversal.
-/

theorem markGo_nil (succ : α → List Nat) (flag : Nat)
    (slots : List (GcSlot α)) :
    markGo succ flag slots [] = (slots, []) := by
  simp [markGo]

theorem markGo_cons_oob (succ : α → List Nat) (flag : Nat)
    (slots : List (GcSlot α)) (h : Nat) (rest : List Nat)
    (hlt : ¬ h < slots.length) :
    markGo succ flag slots (h :: rest) = markGo succ flag slots rest := by
  simp [markGo, hlt]

theorem markGo_cons_marked (succ : α → List Nat) (flag : Nat)
    (slots : List (GcSlot α)) (h : Nat) (rest : List Nat)
    (hlt : h < slots.length) (hf : slots[h].flag = flag) :
    markGo succ flag slots (h :: rest) = markGo succ flag slots rest := by
  simp [markGo, hlt, hf]

theorem markGo_cons_visit (succ : α → List Nat) (flag : Nat)
    (slots : List (GcSlot α)) (h : Nat) (rest : List Nat) (v : α)
    (hlt : h < slots.length) (hf : ¬ slots[h].flag = flag)
    (hv : slots[h].value = some v) :
    markGo succ flag slots (h :: rest) =
      ((markGo succ flag (slots.set h ⟨some v, flag⟩) (succ v ++ rest)).1,
       h :: (markGo succ flag (slots.set h ⟨some v, flag⟩) (succ v ++ rest)).2) := by
  simp [markGo, hlt, hf, hv]

theorem markGo_cons_hollow (succ : α → List Nat) (flag : Nat)
    (slots : List (GcSlot α)) (h : Nat) (rest : List Nat)
    (hlt : h < slots.length) (hf : ¬ slots[h].flag = flag)
    (hv : slots[h].value = none) :
    markGo succ flag slots (h :: rest) =
      markGo succ flag (slots.set h ⟨none, flag⟩) rest := by
  simp [markGo, hlt, hf, hv]

theorem markGo_length (succ : α → List Nat) (flag : Nat)
    (slots : List (GcSlot α)) (ws : List Nat) :
    (markGo succ flag slots ws).1.length = slots.length := by
  induction slots, ws using markGo.induct succ flag with
  | case1 slots => simp [markGo_nil]
  | case2 slots h rest hlt hf ih =>
    rw [markGo_cons_marked succ flag slots h rest hlt (by simpa using hf)]
    exact ih
  | case3 slots h rest hlt hf v hv ih =>
    rw [markGo_cons_visit succ flag slots h rest v hlt (by simpa using hf)
      (by simpa using hv)]
    simpa using ih
  | case4 slots h rest hlt hf hv ih =>
    rw [markGo_cons_hollow succ flag slots h rest hlt (by simpa using hf)
      (by simpa using hv)]
    simpa using ih
  | case5 slots h rest hlt ih =>
    rw [markGo_cons_oob succ flag slots h rest hlt]
    exact ih

theorem markGo_get (succ : α → List Nat) (flag : Nat)
    (slots : List (GcSlot α)) (ws : List Nat) :
    ∀ (i : Nat) (s : GcSlot α), slots.get? i = some s →
      ∃ f, (markGo succ flag slots ws).1.get? i = some ⟨s.value, f⟩ ∧
        (f = s.flag ∨ f = flag) := by
  induction slots, ws using markGo.induct succ flag with
  | case1 slots =>
    intro i s hs
    refine ⟨s.flag, ?_, Or.inl rfl⟩
    rw [markGo_nil, hs]
  | case2 slots h rest hlt hf ih =>
    intro i s hs
    rw [markGo_cons_marked succ flag slots h rest hlt (by simpa using hf)]
    exact ih i s hs
  | case3 slots h rest hlt hf v hv ih =>
    intro i s hs
    rw [markGo_cons_visit succ flag slots h rest v hlt (by simpa using hf)
      (by simpa using hv)]
    by_cases hih : i = h
    · subst hih
      have hseq : s = slots.get ⟨i, hlt⟩ := by
        have h2 := List.get?_eq_get (l := slots) hlt
        rw [hs] at h2
        exact Option.some.inj h2
      have hsv : s.value = some v := by rw [hseq]; exact hv
      obtain ⟨f, hf1, hf2⟩ := ih i ⟨some v, flag⟩
        (List.get?_set_eq_of_lt _ hlt)
      refine ⟨f, ?_, Or.inr ?_⟩
      · show (markGo succ flag (slots.set i ⟨some v, flag⟩)
          (succ v ++ rest)).1.get? i = some ⟨s.value, f⟩
        rw [hsv]
        exact hf1
      · rcases hf2 with h2 | h2 <;> exact h2
    · obtain ⟨f, hf1, hf2⟩ := ih i s (by
        rw [List.get?_set_ne _ _ (Ne.symm hih)]
        exact hs)
      exact ⟨f, hf1, hf2⟩
  | case4 slots h rest hlt hf hv ih =>
    intro i s hs
    rw [markGo_cons_hollow succ flag slots h rest hlt (by simpa using hf)
      (by simpa using hv)]
    by_cases hih : i = h
    · subst hih
      have hseq : s = slots.get ⟨i, hlt⟩ := by
        have h2 := List.get?_eq_get (l := slots) hlt
        rw [hs] at h2
        exact Option.some.inj h2
      have hsv : s.value = none := by rw [hseq]; exact hv
      obtain ⟨f, hf1, hf2⟩ := ih i ⟨none, flag⟩
        (List.get?_set_eq_of_lt _ hlt)
      refine ⟨f, ?_, Or.inr ?_⟩
      · rw [hsv]
        exact hf1
      · rcases hf2 with h2 | h2 <;> exact h2
    · exact ih i s (by
        rw [List.get?_set_ne _ _ (Ne.symm hih)]
        exact hs)
  | case5 slots h rest hlt ih =>
    intro i s hs
    rw [markGo_cons_oob succ flag slots h rest hlt]
    exact ih i s hs

theorem markGo_get_none (succ : α → List Nat) (flag : Nat)
    (slots : List (GcSlot α)) (ws : List Nat) (i : Nat)
    (hi : slots.get? i = none) :
    (markGo succ flag slots ws).1.get? i = none := by
  rw [List.get?_eq_none] at hi ⊢
  rw [markGo_length]
  exact hi

theorem marB_eq_true_iff (flag : Nat) (slots : List (GcSlot α)) (i : Nat) :
    marB flag slots i = true ↔
      ∃ s, slots.get? i = some s ∧ s.flag = flag := by
  unfold marB
  cases hs : slots.get? i with
  | none => simp
  | some s => simp

theorem markGo_marked_stay (succ : α → List Nat) (flag : Nat)
    (slots : List (GcSlot α)) (ws : List Nat) (i : Nat)
    (hm : marB flag slots i = true) :
    marB flag (markGo succ flag slots ws).1 i = true := by
  rw [marB_eq_true_iff] at hm
  obtain ⟨s, hs, hsf⟩ := hm
  obtain ⟨f, hf1, hf2⟩ := markGo_get succ flag slots ws i s hs
  rw [marB_eq_true_iff]
  refine ⟨⟨s.value, f⟩, hf1, ?_⟩
  rcases hf2 with h2 | h2
  · rw [h2]; exact hsf
  · exact h2

theorem markGo_worklist_marked (succ : α → List Nat) (flag : Nat)
    (slots : List (GcSlot α)) (ws : List Nat) :
    ∀ i, i ∈ ws → i < slots.length →
      marB flag (markGo succ flag slots ws).1 i = true := by
  induction slots, ws using markGo.induct succ flag with
  | case1 slots => intro i hi; simp at hi
  | case2 slots h rest hlt hf ih =>
    intro i hi hilt
    rw [markGo_cons_marked succ flag slots h rest hlt (by simpa using hf)]
    rcases List.mem_cons.mp hi with rfl | hi2
    · refine markGo_marked_stay succ flag slots rest i ?_
      rw [marB_eq_true_iff]
      exact ⟨slots.get ⟨i, hlt⟩, List.get?_eq_get hlt, hf⟩
    · exact ih i hi2 hilt
  | case3 slots h rest hlt hf v hv ih =>
    intro i hi hilt
    rw [markGo_cons_visit succ flag slots h rest v hlt (by simpa using hf)
      (by simpa using hv)]
    rcases List.mem_cons.mp hi with rfl | hi2
    · refine markGo_marked_stay succ flag _ _ i ?_
      rw [marB_eq_true_iff]
      exact ⟨⟨some v, flag⟩, List.get?_set_eq_of_lt _ hlt, rfl⟩
    · exact ih i (List.mem_append_right _ hi2) (by simpa using hilt)
  | case4 slots h rest hlt hf hv ih =>
    intro i hi hilt
    rw [markGo_cons_hollow succ flag slots h rest hlt (by simpa using hf)
      (by simpa using hv)]
    rcases List.mem_cons.mp hi with rfl | hi2
    · refine markGo_marked_stay succ flag _ _ i ?_
      rw [marB_eq_true_iff]
      exact ⟨⟨none, flag⟩, List.get?_set_eq_of_lt _ hlt, rfl⟩
    · exact ih i hi2 (by simpa using hilt)
  | case5 slots h rest hlt ih =>
    intro i hi hilt
    rw [markGo_cons_oob succ flag slots h rest hlt]
    rcases List.mem_cons.mp hi with rfl | hi2
    · exact absurd hilt hlt
    · exact ih i hi2 hilt

theorem markGo_closure (succ : α → List Nat) (flag : Nat)
    (slots : List (GcSlot α)) (ws : List Nat) :
    ∀ (i : Nat) (v : α) (fi : Nat),
      slots.get? i = some ⟨some v, fi⟩ → fi ≠ flag →
      marB flag (markGo succ flag slots ws).1 i = true →
      ∀ j, j ∈ succ v → j < slots.length →
        marB flag (markGo succ flag slots ws).1 j = true := by
  induction slots, ws using markGo.induct succ flag with
  | case1 slots =>
    intro i v fi hs hfi hm j hj hjlt
    rw [markGo_nil, marB_eq_true_iff] at hm
    obtain ⟨s2, hs2, hf2⟩ := hm
    rw [hs] at hs2
    rw [← Option.some.inj hs2] at hf2
    exact absurd hf2 hfi
  | case2 slots h rest hlt hf ih =>
    intro i v fi hs hfi hm j hj hjlt
    rw [markGo_cons_marked succ flag slots h rest hlt (by simpa using hf)] at hm ⊢
    exact ih i v fi hs hfi hm j hj hjlt
  | case3 slots h rest hlt hf v hv ih =>
    intro i w fi hs hfi hm j hj hjlt
    rw [markGo_cons_visit succ flag slots h rest v hlt (by simpa using hf)
      (by simpa using hv)] at hm ⊢
    by_cases hih : i = h
    · subst hih
      have hseq : (⟨some w, fi⟩ : GcSlot α) = slots.get ⟨i, hlt⟩ := by
        have h2 := List.get?_eq_get (l := slots) hlt
        rw [hs] at h2
        exact Option.some.inj h2
      have hwv : some w = some v := by
        have := congrArg GcSlot.value hseq
        simpa using this.trans hv
      have hjw : j ∈ succ v := by
        rw [← Option.some.inj hwv]; exact hj
      exact markGo_worklist_marked succ flag _ _ j
        (List.mem_append_left _ hjw) (by simpa using hjlt)
    · have hs3 : (slots.set h (⟨some v, flag⟩ : GcSlot α)).get? i = some ⟨some w, fi⟩ := by
        rw [List.get?_set_ne _ _ (Ne.symm hih)]
        exact hs
      exact ih i w fi hs3 hfi hm j hj (by simpa using hjlt)
  | case4 slots h rest hlt hf hv ih =>
    intro i w fi hs hfi hm j hj hjlt
    rw [markGo_cons_hollow succ flag slots h rest hlt (by simpa using hf)
      (by simpa using hv)] at hm ⊢
    by_cases hih : i = h
    · subst hih
      have hseq : (⟨some w, fi⟩ : GcSlot α) = slots.get ⟨i, hlt⟩ := by
        have h2 := List.get?_eq_get (l := slots) hlt
        rw [hs] at h2
        exact Option.some.inj h2
      have : (some w : Option α) = none := by
        have := congrArg GcSlot.value hseq
        simpa using this.trans hv
      exact absurd this (by simp)
    · have hs3 : (slots.set h (⟨none, flag⟩ : GcSlot α)).get? i = some ⟨some w, fi⟩ := by
        rw [List.get?_set_ne _ _ (Ne.symm hih)]
        exact hs
      exact ih i w fi hs3 hfi hm j hj (by simpa using hjlt)
  | case5 slots h rest hlt ih =>
    intro i v fi hs hfi hm j hj hjlt
    rw [markGo_cons_oob succ flag slots h rest hlt] at hm ⊢
    exact ih i v fi hs hfi hm j hj hjlt

theorem ReachG_mono (g : Nat → List Nat) (ws1 ws2 : List Nat)
    (hsub : ∀ r, r ∈ ws1 → r ∈ ws2) (i : Nat) (h : ReachG g ws1 i) :
    ReachG g ws2 i := by
  induction h with
  | root hr => exact ReachG.root (hsub _ hr)
  | step hri hj ih => exact ReachG.step ih hj

theorem ReachG_congr (g g2 : Nat → List Nat) (hg : ∀ n, g n = g2 n)
    (ws : List Nat) (i : Nat) (h : ReachG g ws i) : ReachG g2 ws i := by
  induction h with
  | root hr => exact ReachG.root hr
  | step hri hj ih => exact ReachG.step ih (hg _ ▸ hj)

theorem ReachG_absorb (g : Nat → List Nat) (ws1 ws2 : List Nat)
    (habs : ∀ r, r ∈ ws2 → ReachG g ws1 r) (i : Nat)
    (h : ReachG g ws2 i) : ReachG g ws1 i := by
  induction h with
  | root hr => exact habs _ hr
  | step hri hj ih => exact ReachG.step ih hj

theorem slotSucc_set (succ : α → List Nat) (slots : List (GcSlot α))
    (h : Nat) (hlt : h < slots.length) (o : Option α)
    (ho : slots[h].value = o) (f : Nat) (n : Nat) :
    slotSucc succ (slots.set h ⟨o, f⟩) n = slotSucc succ slots n := by
  by_cases hn : n = h
  · subst hn
    unfold slotSucc
    rw [List.get?_set_eq_of_lt _ hlt, List.get?_eq_get hlt, ← ho]
    simp [List.get_eq_getElem]
  · unfold slotSucc
    rw [List.get?_set_ne _ _ (Ne.symm hn)]

theorem markGo_sound (succ : α → List Nat) (flag : Nat)
    (slots : List (GcSlot α)) (ws : List Nat) :
    ∀ (i : Nat) (s : GcSlot α), slots.get? i = some s → s.flag ≠ flag →
      marB flag (markGo succ flag slots ws).1 i = true →
      ReachG (slotSucc succ slots) ws i := by
  induction slots, ws using markGo.induct succ flag with
  | case1 slots =>
    intro i s hs hsf hm
    rw [markGo_nil, marB_eq_true_iff] at hm
    obtain ⟨s2, hs2, hf2⟩ := hm
    rw [hs] at hs2
    rw [← Option.some.inj hs2] at hf2
    exact absurd hf2 hsf
  | case2 slots h rest hlt hf ih =>
    intro i s hs hsf hm
    rw [markGo_cons_marked succ flag slots h rest hlt (by simpa using hf)] at hm
    exact ReachG_mono _ rest (h :: rest)
      (fun r hr => List.mem_cons_of_mem _ hr) i (ih i s hs hsf hm)
  | case3 slots h rest hlt hf v hv ih =>
    intro i s hs hsf hm
    rw [markGo_cons_visit succ flag slots h rest v hlt (by simpa using hf)
      (by simpa using hv)] at hm
    by_cases hih : i = h
    · subst hih
      exact ReachG.root (List.mem_cons_self i rest)
    · have hs3 : (slots.set h (⟨some v, flag⟩ : GcSlot α)).get? i = some s := by
        rw [List.get?_set_ne _ _ (Ne.symm hih)]
        exact hs
      have hr2 := ih i s hs3 hsf hm
      have hr3 : ReachG (slotSucc succ slots) (succ v ++ rest) i :=
        ReachG_congr _ _ (slotSucc_set succ slots h hlt (some v)
          (by simpa using hv) flag) _ i hr2
      refine ReachG_absorb _ (h :: rest) (succ v ++ rest) ?_ i hr3
      intro r hr
      rcases List.mem_append.mp hr with hr | hr
      · refine ReachG.step (ReachG.root (List.mem_cons_self h rest)) ?_
        have hsucch : slotSucc succ slots h = succ v := by
          unfold slotSucc
          simp only [List.get?_eq_get hlt]
          simp only [show (slots.get ⟨h, hlt⟩).value = some v from by
            simpa using hv]
        rw [hsucch]
        exact hr
      · exact ReachG.root (List.mem_cons_of_mem _ hr)
  | case4 slots h rest hlt hf hv ih =>
    intro i s hs hsf hm
    rw [markGo_cons_hollow succ flag slots h rest hlt (by simpa using hf)
      (by simpa using hv)] at hm
    by_cases hih : i = h
    · subst hih
      exact ReachG.root (List.mem_cons_self i rest)
    · have hs3 : (slots.set h (⟨none, flag⟩ : GcSlot α)).get? i = some s := by
        rw [List.get?_set_ne _ _ (Ne.symm hih)]
        exact hs
      have hr2 := ih i s hs3 hsf hm
      have hr3 : ReachG (slotSucc succ slots) rest i :=
        ReachG_congr _ _ (slotSucc_set succ slots h hlt none
          (by simpa using hv) flag) _ i hr2
      exact ReachG_mono _ rest (h :: rest)
        (fun r hr => List.mem_cons_of_mem _ hr) i hr3
  | case5 slots h rest hlt ih =>
    intro i s hs hsf hm
    rw [markGo_cons_oob succ flag slots h rest hlt] at hm
    exact ReachG_mono _ rest (h :: rest)
      (fun r hr => List.mem_cons_of_mem _ hr) i (ih i s hs hsf hm)

theorem markGo_complete (succ : α → List Nat) (flag : Nat)
    (slots : List (GcSlot α)) (roots : List Nat)
    (hun : ∀ (i : Nat) (s : GcSlot α) (v : α), slots.get? i = some s →
      s.value = some v → s.flag ≠ flag)
    (j : Nat) (hr : ReachG (slotSucc succ slots) roots j)
    (hj : j < slots.length) :
    marB flag (markGo succ flag slots roots).1 j = true := by
  revert hj
  induction hr with
  | root hrr =>
    intro hjlt
    exact markGo_worklist_marked succ flag slots roots _ hrr hjlt
  | step hri hjg ih =>
    intro hjlt
    rename_i i j2
    unfold slotSucc at hjg
    cases hgi : slots.get? i with
    | none => simp only [hgi] at hjg; simp at hjg
    | some s =>
      simp only [hgi] at hjg
      cases hsv : s.value with
      | none => simp only [hsv] at hjg; simp at hjg
      | some v =>
        simp only [hsv] at hjg
        have hilt : i < slots.length := by
          by_contra hcon
          rw [List.get?_eq_none.mpr (by omega)] at hgi
          exact Option.noConfusion hgi
        have hmi := ih hilt
        have hfi : s.flag ≠ flag := hun i s v hgi hsv
        refine markGo_closure succ flag slots roots i v s.flag ?_ hfi hmi
          j2 hjg hjlt
        rw [hgi, ← hsv]

theorem markGo_append (succ : α → List Nat) (flag : Nat)
    (slots : List (GcSlot α)) (ws1 ws2 : List Nat) :
    markGo succ flag slots (ws1 ++ ws2) =
      ((markGo succ flag (markGo succ flag slots ws1).1 ws2).1,
       (markGo succ flag slots ws1).2 ++
         (markGo succ flag (markGo succ flag slots ws1).1 ws2).2) := by
  induction slots, ws1 using markGo.induct succ flag with
  | case1 slots =>
    rw [List.nil_append, markGo_nil]
    simp
  | case2 slots h rest hlt hf ih =>
    rw [List.cons_append,
      markGo_cons_marked succ flag slots h (rest ++ ws2) hlt (by simpa using hf),
      markGo_cons_marked succ flag slots h rest hlt (by simpa using hf), ih]
  | case3 slots h rest hlt hf v hv ih =>
    rw [List.cons_append,
      markGo_cons_visit succ flag slots h (rest ++ ws2) v hlt (by simpa using hf)
        (by simpa using hv),
      markGo_cons_visit succ flag slots h rest v hlt (by simpa using hf)
        (by simpa using hv),
      show succ v ++ (rest ++ ws2) = (succ v ++ rest) ++ ws2 from
        (List.append_assoc _ _ _).symm,
      ih]
    simp
  | case4 slots h rest hlt hf hv ih =>
    rw [List.cons_append,
      markGo_cons_hollow succ flag slots h (rest ++ ws2) hlt (by simpa using hf)
        (by simpa using hv),
      markGo_cons_hollow succ flag slots h rest hlt (by simpa using hf)
        (by simpa using hv),
      ih]
  | case5 slots h rest hlt ih =>
    rw [List.cons_append,
      markGo_cons_oob succ flag slots h (rest ++ ws2) hlt,
      markGo_cons_oob succ flag slots h rest hlt, ih]

theorem markAll_flag (succ : α → List Nat) :
    ∀ (roots : List Nat) (a : SimpleGcAllocator α),
      (markAll succ a roots).flag = a.flag := by
  intro roots
  induction roots with
  | nil => intro a; rfl
  | cons r rs ih => intro a; exact ih (SimpleGcAllocator.mark succ a r)

theorem markAll_values (succ : α → List Nat) :
    ∀ (roots : List Nat) (a : SimpleGcAllocator α),
      (markAll succ a roots).values = a.values := by
  intro roots
  induction roots with
  | nil => intro a; rfl
  | cons r rs ih => intro a; exact ih (SimpleGcAllocator.mark succ a r)

theorem markAll_slots (succ : α → List Nat) :
    ∀ (roots : List Nat) (a : SimpleGcAllocator α),
      (markAll succ a roots).slots = (markGo succ a.flag a.slots roots).1 := by
  intro roots
  induction roots with
  | nil => intro a; rw [markGo_nil]; rfl
  | cons r rs ih =>
    intro a
    have h1 : markAll succ a (r :: rs) =
        markAll succ (SimpleGcAllocator.mark succ a r) rs := rfl
    rw [h1, ih]
    have h2 : (r :: rs) = [r] ++ rs := rfl
    rw [h2, markGo_append]
    rfl

theorem lt_of_get?_some {β : Type} {l : List β} {n : Nat} {x : β}
    (h : l.get? n = some x) : n < l.length := by
  by_contra hn
  rw [List.get?_eq_none.mpr (by omega)] at h
  exact Option.noConfusion h

theorem mark_skip (succ : α → List Nat) (a : SimpleGcAllocator α) (h : Nat)
    (hskip : ¬ h < a.slots.length ∨ marB a.flag a.slots h = true) :
    SimpleGcAllocator.mark succ a h = a ∧ markVisits succ a h = [] := by
  have hrun : markGo succ a.flag a.slots [h] = (a.slots, []) := by
    rcases hskip with hoob | hm
    · rw [markGo_cons_oob succ a.flag a.slots h [] hoob, markGo_nil]
    · rw [marB_eq_true_iff] at hm
      obtain ⟨s, hs, hsf⟩ := hm
      have hlt : h < a.slots.length := lt_of_get?_some hs
      have hgf : a.slots[h].flag = a.flag := by
        have h2 := List.get?_eq_get (l := a.slots) hlt
        rw [hs] at h2
        have h3 : s = a.slots.get ⟨h, hlt⟩ := Option.some.inj h2
        have h4 : a.slots[h] = a.slots.get ⟨h, hlt⟩ :=
          (List.get_eq_getElem a.slots ⟨h, hlt⟩).symm
        rw [h4, ← h3]
        exact hsf
      rw [markGo_cons_marked succ a.flag a.slots h [] hlt hgf, markGo_nil]
  constructor
  · show { a with slots := (markGo succ a.flag a.slots [h]).1 } = a
    rw [hrun]
  · show (markGo succ a.flag a.slots [h]).2 = []
    rw [hrun]

theorem markGo_visits_unmarked (succ : α → List Nat) (flag : Nat)
    (slots : List (GcSlot α)) (ws : List Nat) :
    ∀ i, i ∈ (markGo succ flag slots ws).2 →
      ∃ s, slots.get? i = some s ∧ s.flag ≠ flag := by
  induction slots, ws using markGo.induct succ flag with
  | case1 slots =>
    intro i hi
    rw [markGo_nil] at hi
    simp at hi
  | case2 slots h rest hlt hf ih =>
    intro i hi
    rw [markGo_cons_marked succ flag slots h rest hlt (by simpa using hf)] at hi
    exact ih i hi
  | case3 slots h rest hlt hf v hv ih =>
    intro i hi
    rw [markGo_cons_visit succ flag slots h rest v hlt (by simpa using hf)
      (by simpa using hv)] at hi
    rcases List.mem_cons.mp hi with rfl | hi2
    · exact ⟨slots.get ⟨i, hlt⟩, List.get?_eq_get hlt, by simpa using hf⟩
    · obtain ⟨s, hs, hsf⟩ := ih i hi2
      by_cases hih : i = h
      · subst hih
        rw [List.get?_set_eq_of_lt _ hlt] at hs
        rw [← Option.some.inj hs] at hsf
        exact absurd rfl hsf
      · rw [List.get?_set_ne _ _ (Ne.symm hih)] at hs
        exact ⟨s, hs, hsf⟩
  | case4 slots h rest hlt hf hv ih =>
    intro i hi
    rw [markGo_cons_hollow succ flag slots h rest hlt (by simpa using hf)
      (by simpa using hv)] at hi
    obtain ⟨s, hs, hsf⟩ := ih i hi
    by_cases hih : i = h
    · subst hih
      rw [List.get?_set_eq_of_lt _ hlt] at hs
      rw [← Option.some.inj hs] at hsf
      exact absurd rfl hsf
    · rw [List.get?_set_ne _ _ (Ne.symm hih)] at hs
      exact ⟨s, hs, hsf⟩
  | case5 slots h rest hlt ih =>
    intro i hi
    rw [markGo_cons_oob succ flag slots h rest hlt] at hi
    exact ih i hi

theorem markGo_visits_nodup (succ : α → List Nat) (flag : Nat)
    (slots : List (GcSlot α)) (ws : List Nat) :
    ((markGo succ flag slots ws).2).Nodup := by
  induction slots, ws using markGo.induct succ flag with
  | case1 slots => rw [markGo_nil]; simp
  | case2 slots h rest hlt hf ih =>
    rw [markGo_cons_marked succ flag slots h rest hlt (by simpa using hf)]
    exact ih
  | case3 slots h rest hlt hf v hv ih =>
    rw [markGo_cons_visit succ flag slots h rest v hlt (by simpa using hf)
      (by simpa using hv)]
    refine List.Nodup.cons ?_ ih
    intro hmem
    obtain ⟨s, hs, hsf⟩ := markGo_visits_unmarked succ flag _ _ h hmem
    rw [List.get?_set_eq_of_lt _ hlt] at hs
    rw [← Option.some.inj hs] at hsf
    exact absurd rfl hsf
  | case4 slots h rest hlt hf hv ih =>
    rw [markGo_cons_hollow succ flag slots h rest hlt (by simpa using hf)
      (by simpa using hv)]
    exact ih
  | case5 slots h rest hlt ih =>
    rw [markGo_cons_oob succ flag slots h rest hlt]
    exact ih

theorem marB_eq_false_iff (flag : Nat) (slots : List (GcSlot α)) (i : Nat) :
    marB flag slots i = false ↔
      ∀ s, slots.get? i = some s → s.flag ≠ flag := by
  rw [← Bool.not_eq_true, marB_eq_true_iff]
  constructor
  · intro hn s hs hf
    exact hn ⟨s, hs, hf⟩
  · rintro h2 ⟨s, hs, hf⟩
    exact h2 s hs hf

theorem payloadNone_eq_true_iff (slots : List (GcSlot α)) (i : Nat) :
    payloadNone slots i = true ↔
      ∀ s, slots.get? i = some s → s.value = none := by
  unfold payloadNone
  cases hs : slots.get? i with
  | none => simp
  | some s =>
    simp only [Option.isNone_iff_eq_none]
    constructor
    · intro h2 s2 hs2
      rw [← Option.some.inj hs2]
      exact h2
    · intro h2
      exact h2 s rfl

theorem marB_set_none (flag : Nat) (slots : List (GcSlot α)) (i : Nat)
    (s : GcSlot α) (hs : slots.get? i = some s) (j : Nat) :
    marB flag (slots.set i ⟨none, s.flag⟩) j = marB flag slots j := by
  by_cases hj : j = i
  · subst hj
    unfold marB
    rw [List.get?_set_eq_of_lt _ (lt_of_get?_some hs), hs]
  · unfold marB
    rw [List.get?_set_ne _ _ (Ne.symm hj)]

theorem sweepGo_cons_none (flag : Nat) (slots : List (GcSlot α)) (i : Nat)
    (rest : List Nat) (hs : slots.get? i = none) :
    sweepGo flag slots (i :: rest) = sweepGo flag slots rest := by
  simp only [sweepGo, hs]

theorem sweepGo_cons_unmarked (flag : Nat) (slots : List (GcSlot α)) (i : Nat)
    (rest : List Nat) (s : GcSlot α) (hs : slots.get? i = some s)
    (hf : s.flag ≠ flag) :
    sweepGo flag slots (i :: rest) =
      sweepGo flag (slots.set i ⟨none, s.flag⟩) rest := by
  simp only [sweepGo, hs]
  rw [if_pos hf]

theorem sweepGo_cons_kept (flag : Nat) (slots : List (GcSlot α)) (i : Nat)
    (rest : List Nat) (s : GcSlot α) (hs : slots.get? i = some s)
    (hf : ¬ s.flag ≠ flag) :
    sweepGo flag slots (i :: rest) =
      ((sweepGo flag slots rest).1, i :: (sweepGo flag slots rest).2) := by
  simp only [sweepGo, hs]
  rw [if_neg hf]

theorem sweepGo_values (flag : Nat) :
    ∀ (values : List Nat) (slots : List (GcSlot α)),
      (sweepGo flag slots values).2 =
        values.filter (fun i => marB flag slots i) := by
  intro values
  induction values with
  | nil => intro slots; rfl
  | cons i rest ih =>
    intro slots
    cases hs : slots.get? i with
    | none =>
      rw [sweepGo_cons_none flag slots i rest hs, ih slots]
      have hmf : marB flag slots i = false := by
        unfold marB; rw [hs]
      rw [List.filter_cons, hmf]
      simp
    | some s =>
      by_cases hf : s.flag ≠ flag
      · rw [sweepGo_cons_unmarked flag slots i rest s hs hf]
        have hmf : marB flag slots i = false := by
          rw [marB_eq_false_iff]
          intro s2 hs2
          rw [hs] at hs2
          rw [← Option.some.inj hs2]
          exact hf
        rw [List.filter_cons, hmf]
        simp only [Bool.false_eq_true, if_false]
        rw [ih]
        exact List.filter_congr fun j _ => marB_set_none flag slots i s hs j
      · rw [sweepGo_cons_kept flag slots i rest s hs hf]
        have hmt : marB flag slots i = true := by
          rw [marB_eq_true_iff]
          exact ⟨s, hs, by simpa using hf⟩
        rw [List.filter_cons, hmt]
        simp only [if_true]
        rw [ih]

theorem sweepGo_slots_not_mem (flag : Nat) :
    ∀ (values : List Nat) (slots : List (GcSlot α)) (j : Nat),
      j ∉ values →
      (sweepGo flag slots values).1.get? j = slots.get? j := by
  intro values
  induction values with
  | nil => intro slots j _; rfl
  | cons i rest ih =>
    intro slots j hj
    have hji : j ≠ i := fun h2 => hj (h2 ▸ List.mem_cons_self i rest)
    have hjr : j ∉ rest := fun h2 => hj (List.mem_cons_of_mem _ h2)
    cases hs : slots.get? i with
    | none =>
      rw [sweepGo_cons_none flag slots i rest hs]
      exact ih slots j hjr
    | some s =>
      by_cases hf : s.flag ≠ flag
      · rw [sweepGo_cons_unmarked flag slots i rest s hs hf, ih _ j hjr,
          List.get?_set_ne _ _ (Ne.symm hji)]
      · rw [sweepGo_cons_kept flag slots i rest s hs hf]
        exact ih slots j hjr

theorem sweepGo_slots_marked (flag : Nat) :
    ∀ (values : List Nat) (slots : List (GcSlot α)) (j : Nat),
      marB flag slots j = true →
      (sweepGo flag slots values).1.get? j = slots.get? j := by
  intro values
  induction values with
  | nil => intro slots j _; rfl
  | cons i rest ih =>
    intro slots j hm
    cases hs : slots.get? i with
    | none =>
      rw [sweepGo_cons_none flag slots i rest hs]
      exact ih slots j hm
    | some s =>
      by_cases hf : s.flag ≠ flag
      · rw [sweepGo_cons_unmarked flag slots i rest s hs hf]
        have hji : j ≠ i := by
          intro h2
          subst h2
          rw [marB_eq_true_iff] at hm
          obtain ⟨s2, hs2, hf2⟩ := hm
          rw [hs] at hs2
          rw [← Option.some.inj hs2] at hf2
          exact hf hf2
        rw [ih _ j (by rw [marB_set_none flag slots i s hs j]; exact hm),
          List.get?_set_ne _ _ (Ne.symm hji)]
      · rw [sweepGo_cons_kept flag slots i rest s hs hf]
        exact ih slots j hm

theorem sweepGo_slots_unmarked (flag : Nat) :
    ∀ (values : List Nat) (slots : List (GcSlot α)) (j : Nat) (s : GcSlot α),
      j ∈ values → slots.get? j = some s → s.flag ≠ flag →
      (sweepGo flag slots values).1.get? j = some ⟨none, s.flag⟩ := by
  intro values
  induction values with
  | nil => intro slots j s hj; exact absurd hj (List.not_mem_nil j)
  | cons i rest ih =>
    intro slots j s hj hs hsf
    cases hgi : slots.get? i with
    | none =>
      rw [sweepGo_cons_none flag slots i rest hgi]
      rcases List.mem_cons.mp hj with rfl | hjr
      · rw [hs] at hgi; exact Option.noConfusion hgi
      · exact ih slots j s hjr hs hsf
    | some si =>
      by_cases hfi : si.flag ≠ flag
      · rw [sweepGo_cons_unmarked flag slots i rest si hgi hfi]
        by_cases hji : j = i
        · subst hji
          have hsi : si = s := by
            rw [hs] at hgi
            exact (Option.some.inj hgi).symm
          subst hsi
          have hget : (slots.set j ⟨none, si.flag⟩).get? j =
              some ⟨none, si.flag⟩ :=
            List.get?_set_eq_of_lt _ (lt_of_get?_some hs)
          by_cases hjr : j ∈ rest
          · exact ih _ j ⟨none, si.flag⟩ hjr hget hsf
          · rw [sweepGo_slots_not_mem flag rest _ j hjr]
            exact hget
        · have hs2 : (slots.set i ⟨none, si.flag⟩).get? j = some s := by
            rw [List.get?_set_ne _ _ (Ne.symm hji)]
            exact hs
          rcases List.mem_cons.mp hj with rfl | hjr
          · exact absurd rfl hji
          · exact ih _ j s hjr hs2 hsf
      · rw [sweepGo_cons_kept flag slots i rest si hgi hfi]
        rcases List.mem_cons.mp hj with rfl | hjr
        · rw [hs] at hgi
          rw [← Option.some.inj hgi] at hfi
          exact absurd hsf hfi
        · exact ih slots j s hjr hs hsf

/-!
Unfold equations for traceRefGo, and its agreement with markGo on every
traversal that completes without the borrow panic.
-/

theorem traceRefGo_nil (succ : α → List Nat) (flag : Nat)
    (slots : List (GcSlot α)) :
    traceRefGo succ flag slots [] = some (slots, []) := by
  simp [traceRefGo]

theorem traceRefGo_cons_borrow (succ : α → List Nat) (flag : Nat)
    (slots : List (GcSlot α)) (h : Nat) (path : List Nat)
    (rest : List (Nat × List Nat)) (hmem : h ∈ path) :
    traceRefGo succ flag slots ((h, path) :: rest) = none := by
  simp [traceRefGo, hmem]

theorem traceRefGo_cons_oob (succ : α → List Nat) (flag : Nat)
    (slots : List (GcSlot α)) (h : Nat) (path : List Nat)
    (rest : List (Nat × List Nat)) (hmem : h ∉ path)
    (hlt : ¬ h < slots.length) :
    traceRefGo succ flag slots ((h, path) :: rest) =
      traceRefGo succ flag slots rest := by
  simp [traceRefGo, hmem, hlt]

theorem traceRefGo_cons_marked (succ : α → List Nat) (flag : Nat)
    (slots : List (GcSlot α)) (h : Nat) (path : List Nat)
    (rest : List (Nat × List Nat)) (hmem : h ∉ path)
    (hlt : h < slots.length) (hf : slots[h].flag = flag) :
    traceRefGo succ flag slots ((h, path) :: rest) =
      traceRefGo succ flag slots rest := by
  simp [traceRefGo, hmem, hlt, hf]

theorem traceRefGo_cons_visit (succ : α → List Nat) (flag : Nat)
    (slots : List (GcSlot α)) (h : Nat) (path : List Nat)
    (rest : List (Nat × List Nat)) (v : α) (hmem : h ∉ path)
    (hlt : h < slots.length) (hf : ¬ slots[h].flag = flag)
    (hv : slots[h].value = some v) :
    traceRefGo succ flag slots ((h, path) :: rest) =
      match traceRefGo succ flag (slots.set h ⟨some v, flag⟩)
          ((succ v).map (fun j => (j, h :: path)) ++ rest) with
      | some r => some (r.1, h :: r.2)
      | none => none := by
  simp [traceRefGo, hmem, hlt, hf, hv]

theorem traceRefGo_cons_hollow (succ : α → List Nat) (flag : Nat)
    (slots : List (GcSlot α)) (h : Nat) (path : List Nat)
    (rest : List (Nat × List Nat)) (hmem : h ∉ path)
    (hlt : h < slots.length) (hf : ¬ slots[h].flag = flag)
    (hv : slots[h].value = none) :
    traceRefGo succ flag slots ((h, path) :: rest) =
      traceRefGo succ flag (slots.set h ⟨none, flag⟩) rest := by
  simp [traceRefGo, hmem, hlt, hf, hv]

theorem traceRefGo_eq_markGo (succ : α → List Nat) (flag : Nat)
    (slots : List (GcSlot α)) (ws : List (Nat × List Nat)) :
    ∀ r, traceRefGo succ flag slots ws = some r →
      markGo succ flag slots (ws.map Prod.fst) = r := by
  induction slots, ws using traceRefGo.induct succ flag with
  | case1 slots =>
    intro r hr
    rw [traceRefGo_nil] at hr
    rw [← Option.some.inj hr]
    exact markGo_nil succ flag slots
  | case2 slots h path rest hmem =>
    intro r hr
    rw [traceRefGo_cons_borrow succ flag slots h path rest hmem] at hr
    exact Option.noConfusion hr
  | case3 slots h path rest hmem hlt hf ih =>
    intro r hr
    rw [traceRefGo_cons_marked succ flag slots h path rest hmem hlt
      (by simpa using hf)] at hr
    show markGo succ flag slots (h :: List.map Prod.fst rest) = r
    rw [markGo_cons_marked succ flag slots h _ hlt (by simpa using hf)]
    exact ih r hr
  | case4 slots h path rest hmem hlt hf v hv r2 hrec ih =>
    intro r hr
    rw [traceRefGo_cons_visit succ flag slots h path rest v hmem hlt
      (by simpa using hf) (by simpa using hv)] at hr
    simp only [hrec] at hr
    have heq := ih r2 hrec
    have hmap : List.map Prod.fst
        (List.map (fun j => (j, h :: path)) (succ v) ++ rest) =
        succ v ++ List.map Prod.fst rest := by
      simp [Function.comp_def]
    rw [hmap] at heq
    show markGo succ flag slots (h :: List.map Prod.fst rest) = r
    rw [markGo_cons_visit succ flag slots h _ v hlt (by simpa using hf)
      (by simpa using hv), heq, ← Option.some.inj hr]
  | case5 slots h path rest hmem hlt hf v hv hrec ih =>
    intro r hr
    rw [traceRefGo_cons_visit succ flag slots h path rest v hmem hlt
      (by simpa using hf) (by simpa using hv)] at hr
    simp only [hrec] at hr
    exact Option.noConfusion hr
  | case6 slots h path rest hmem hlt hf hv ih =>
    intro r hr
    rw [traceRefGo_cons_hollow succ flag slots h path rest hmem hlt
      (by simpa using hf) (by simpa using hv)] at hr
    show markGo succ flag slots (h :: List.map Prod.fst rest) = r
    rw [markGo_cons_hollow succ flag slots h _ hlt (by simpa using hf)
      (by simpa using hv)]
    exact ih r hr
  | case7 slots h path rest hmem hlt ih =>
    intro r hr
    rw [traceRefGo_cons_oob succ flag slots h path rest hmem hlt] at hr
    show markGo succ flag slots (h :: List.map Prod.fst rest) = r
    rw [markGo_cons_oob succ flag slots h _ hlt]
    exact ih r hr

/-- C7: the claim says marking is a no-op on an already-marked slot and that
recursion through cycles terminates with each payload visited once.  The
source defeats its own cycle check: trace_ref keeps the RefMut guard of the
slot flag RefCell alive across the recursive value.trace call, so a back
edge into a slot on the active traversal path attempts a second borrow_mut
and panics before the equal-flag test can run.  First conjunct: on a heap
whose single tracked slot holds a handle to itself, marking that handle
aborts in the borrow panic instead of terminating through the no-op.
Second conjunct: the no-op half of the claim does hold when no guard is
alive, since marking an already-marked slot afresh completes, changes
nothing and visits nothing.  Third conjunct: re-visiting a slot whose own
traversal already finished (a slot shared by two handles, not a cycle) also
completes with a single visit of each slot, locating the defect exactly on
the active-path case the claim is about. -/
theorem mark_cycle_borrow_panics :
    markChecked tSucc
        (⟨1, [⟨some (.arr [0]), 0⟩], [0]⟩ : SimpleGcAllocator TVal) 0 = none
    ∧ markChecked tSucc
        (⟨1, [⟨some (.arr [0]), 1⟩], [0]⟩ : SimpleGcAllocator TVal) 0 =
        some ⟨1, [⟨some (.arr [0]), 1⟩], [0]⟩
    ∧ markChecked tSucc
        (⟨1, [⟨some (.int 1), 0⟩, ⟨some (.arr [0, 0]), 0⟩], [0, 1]⟩ :
          SimpleGcAllocator TVal) 1 =
        some ⟨1, [⟨some (.int 1), 1⟩, ⟨some (.arr [0, 0]), 1⟩], [0, 1]⟩ := by
  refine ⟨?_, ?_, ?_⟩ <;> simp [markChecked, traceRefGo, tSucc]

/-- C8: a mark phase (any sequence of mark calls since the last sweep)
followed by sweep keeps exactly the tracked slots whose flag equals the
current flag, in their original relative order in the live list (conjunct
1); given that every tracked slot starts off-cycle (fresh slots carry flag
0, distinct from both cycle values, and a sweep leaves survivors off the
next cycle) and that untracked slots are hollow, the flag-matching tracked
slots are exactly those transitively reachable from the marked roots
(conjunct 2); every other tracked slot has its payload released (conjunct
3) while kept slots keep their payload (conjunct 4); and the current flag is
flipped to the other of its two states (conjunct 5). -/
theorem sweep_keeps_reachable {α : Type} (succ : α → List Nat)
    (a : SimpleGcAllocator α) (roots : List Nat)
    (H1 : ∀ i ∈ a.values, marB a.flag a.slots i = false)
    (H2 : ∀ i, i < a.slots.length → i ∉ a.values →
      payloadNone a.slots i = true)
    (H3 : ∀ i ∈ a.values, i < a.slots.length) :
    ((markAll succ a roots).sweep.values =
       a.values.filter (fun i => marB a.flag (markAll succ a roots).slots i))
    ∧ (∀ i ∈ a.values,
        (marB a.flag (markAll succ a roots).slots i = true ↔
          ReachG (slotSucc succ a.slots) roots i))
    ∧ (∀ i ∈ a.values, ¬ ReachG (slotSucc succ a.slots) roots i →
        ∃ s, (markAll succ a roots).sweep.slots.get? i = some s ∧
          s.value = none)
    ∧ (∀ i ∈ a.values, ∀ s0, a.slots.get? i = some s0 →
        ReachG (slotSucc succ a.slots) roots i →
        ∃ s, (markAll succ a roots).sweep.slots.get? i = some s ∧
          s.value = s0.value)
    ∧ (markAll succ a roots).sweep.flag = flipFlag a.flag := by
  have hflag : (markAll succ a roots).flag = a.flag := markAll_flag succ roots a
  have hvals : (markAll succ a roots).values = a.values :=
    markAll_values succ roots a
  have hslots : (markAll succ a roots).slots =
      (markGo succ a.flag a.slots roots).1 := markAll_slots succ roots a
  have hiff : ∀ i ∈ a.values,
      (marB a.flag (markAll succ a roots).slots i = true ↔
        ReachG (slotSucc succ a.slots) roots i) := by
    intro i hi
    have hilt := H3 i hi
    constructor
    · intro hm
      obtain ⟨s, hs⟩ : ∃ s, a.slots.get? i = some s := by
        cases hg : a.slots.get? i with
        | none => exact absurd hilt (by rw [List.get?_eq_none] at hg; omega)
        | some s => exact ⟨s, rfl⟩
      have hsf : s.flag ≠ a.flag := (marB_eq_false_iff _ _ _).mp (H1 i hi) s hs
      rw [hslots] at hm
      exact markGo_sound succ a.flag a.slots roots i s hs hsf hm
    · intro hr
      rw [hslots]
      refine markGo_complete succ a.flag a.slots roots ?_ i hr hilt
      intro k sk vk hgk hvk
      by_cases hk : k ∈ a.values
      · exact (marB_eq_false_iff _ _ _).mp (H1 k hk) sk hgk
      · have hp := (payloadNone_eq_true_iff _ _).mp
          (H2 k (lt_of_get?_some hgk) hk) sk hgk
        rw [hvk] at hp
        exact Option.noConfusion hp
  refine ⟨?_, hiff, ?_, ?_, ?_⟩
  · show (sweepGo (markAll succ a roots).flag (markAll succ a roots).slots
      (markAll succ a roots).values).2 = _
    rw [sweepGo_values, hflag, hvals]
  · intro i hi hnr
    have hilt := H3 i hi
    obtain ⟨s0, hs0⟩ : ∃ s0, a.slots.get? i = some s0 := by
      cases hg : a.slots.get? i with
      | none => exact absurd hilt (by rw [List.get?_eq_none] at hg; omega)
      | some s0 => exact ⟨s0, rfl⟩
    obtain ⟨f, hf1, hf2⟩ := markGo_get succ a.flag a.slots roots i s0 hs0
    have hm : marB a.flag (markAll succ a roots).slots i = false := by
      cases hb : marB a.flag (markAll succ a roots).slots i with
      | false => rfl
      | true => exact absurd ((hiff i hi).mp hb) hnr
    have hfne : (⟨s0.value, f⟩ : GcSlot α).flag ≠ a.flag := by
      rw [hslots] at hm
      exact (marB_eq_false_iff _ _ _).mp hm ⟨s0.value, f⟩ hf1
    show ∃ s, (sweepGo (markAll succ a roots).flag (markAll succ a roots).slots
        (markAll succ a roots).values).1.get? i = some s ∧ s.value = none
    rw [hflag, hvals, hslots]
    exact ⟨⟨none, f⟩,
      sweepGo_slots_unmarked a.flag a.values _ i ⟨s0.value, f⟩ hi hf1 hfne, rfl⟩
  · intro i hi s0 hs0 hr
    have hm : marB a.flag (markAll succ a roots).slots i = true :=
      (hiff i hi).mpr hr
    obtain ⟨f, hf1, hf2⟩ := markGo_get succ a.flag a.slots roots i s0 hs0
    show ∃ s, (sweepGo (markAll succ a roots).flag (markAll succ a roots).slots
        (markAll succ a roots).values).1.get? i = some s ∧ s.value = s0.value
    rw [hflag, hvals, hslots]
    rw [hslots] at hm
    refine ⟨⟨s0.value, f⟩, ?_, rfl⟩
    rw [sweepGo_slots_marked a.flag a.values _ i hm]
    exact hf1
  · show flipFlag (markAll succ a roots).flag = flipFlag a.flag
    rw [hflag]

/-- The mark and sweep scenario of the lib.rs test: four integers, an array
referencing slot 0 and an array referencing slots 0 and 1, all freshly
allocated (flag 0) and tracked, with the allocator in its first cycle. -/
def gcTestAlloc : SimpleGcAllocator TVal :=
  ⟨1,
   [⟨some (.int 1), 0⟩, ⟨some (.int 2), 0⟩, ⟨some (.int 3), 0⟩,
    ⟨some (.int 4), 0⟩, ⟨some (.arr [0]), 0⟩, ⟨some (.arr [0, 1]), 0⟩],
   [0, 1, 2, 3, 4, 5]⟩

/-- C8 witness: marking the first array (slot 4) and the third integer
(slot 2) and sweeping keeps exactly the flag-matching tracked slots, in
their original order, on the test heap. -/
theorem sweep_keeps_reachable_witness :
    (markAll tSucc gcTestAlloc [4, 2]).sweep.values =
      gcTestAlloc.values.filter
        (fun i => marB gcTestAlloc.flag
          (markAll tSucc gcTestAlloc [4, 2]).slots i) :=
  (sweep_keeps_reachable tSucc gcTestAlloc [4, 2] (by decide) (by decide)
    (by decide)).1

/-- C9: dereferencing a handle whose slot exists panics (the none outcome of
derefRef) exactly when the payload has been collected; when the payload is
present the dereference returns exactly that payload, never anything else;
and a dereference leaves the allocator unchanged for further alloc, mark and
sweep calls (derefRef reads the state without producing a new one, made
explicit by derefState returning the allocator as it was). -/
theorem deref_panics_iff_collected {α : Type} (a : SimpleGcAllocator α)
    (h : Nat) (s : GcSlot α) (hs : a.slots.get? h = some s) :
    (derefRef a h = none ↔ s.value = none)
    ∧ (∀ v : α, s.value = some v → derefRef a h = some v)
    ∧ derefState a h = (derefRef a h, a) := by
  have hd : derefRef a h = s.value := by
    unfold derefRef
    rw [hs]
  exact ⟨by rw [hd], fun v hv => by rw [hd, hv], rfl⟩

/-- C9 witness: on an allocator holding one collected slot (allocate one
value, sweep with nothing marked), dereferencing the stale handle is exactly
the panic outcome. -/
theorem deref_panics_iff_collected_witness :
    derefRef (⟨2, [⟨none, 0⟩], []⟩ : SimpleGcAllocator TVal) 0 = none ↔
      (⟨none, 0⟩ : GcSlot TVal).value = none :=
  (deref_panics_iff_collected
    (⟨2, [⟨none, 0⟩], []⟩ : SimpleGcAllocator TVal) 0 ⟨none, 0⟩ rfl).1

/-- The lib.rs test scenario end to end: marking the first array (slot 4)
and the third integer (slot 2) and sweeping keeps exactly slots 0, 2 and 4,
in allocation order, matching the assertions of the source test. -/
theorem gcTestAlloc_sweep_values :
    (markAll tSucc gcTestAlloc [4, 2]).sweep.values = [0, 2, 4] := by
  simp [markAll, SimpleGcAllocator.mark, SimpleGcAllocator.sweep, markGo,
    sweepGo, gcTestAlloc, tSucc, marB, flipFlag]
